import Mathlib

/-!
# Verification of the flight value-scoring routine of `flight_agent.py`

This file gives a shallow embedding of the reproducible core of the
repository: the `FlightSearchAgent.parse_time` helper and the
`FlightSearchAgent.sort_flights_by_value` routine (with its inner
`flight_score` closure), and proves the testable properties stated in the
specification about them.

Modelling conventions:
* Python numbers are modelled by `ℚ` (exact arithmetic).
* A Python value stored under the `"price"` key is either a number or a
  non-numeric value (modelled by a string payload), and the key itself may
  be absent: `Option PVal`.
* Python code that can raise is modelled in `Except String`; the payload
  names the exception class (`"TypeError"`).
* `datetime.strptime` on the two formats `"%H:%M"` and `"%I:%M %p"` is
  modelled by a direct character parser implementing the regexes CPython's
  `_strptime` builds for these formats
  (`%H ↦ 2[0-3]|[0-1]\d|\d`, `%M ↦ [0-5]\d|\d`, `%I ↦ 1[0-2]|0[1-9]|[1-9]`,
  a whitespace run for the literal blank, and a case-insensitive `AM|PM`
  for `%p`); digits are restricted to ASCII.  For these tiny patterns the
  ordered-alternative parser below is equivalent to the backtracking regex:
  whenever a longer alternative consumes a second digit, the shorter
  alternative leaves a digit in front of the following `:`/blank/end and
  fails as well.
-/

namespace FlightAgent

/-- Python `\s` (ASCII white space as used by `str.strip` and the
`_strptime` regex). -/
def pyIsSpace (c : Char) : Bool :=
  c = ' ' || c = '\t' || c = '\n' || c = '\r' || c = '\x0b' || c = '\x0c'

/-- Python `str.strip()` on a character list. -/
def pyStrip (cs : List Char) : List Char :=
  ((cs.dropWhile pyIsSpace).reverse.dropWhile pyIsSpace).reverse

/-- ASCII decimal digit, returning its value. -/
def digit? (c : Char) : Option Nat :=
  if 48 ≤ c.toNat ∧ c.toNat ≤ 57 then some (c.toNat - 48) else none

/-- Does the character list contain the two-character sequence `a b`?
(Python's `'AM' in time_str` substring test.) -/
def containsPair (a b : Char) : List Char → Bool
  | [] => false
  | [_] => false
  | c0 :: c1 :: rest => (c0 = a && c1 = b) || containsPair a b (c1 :: rest)

/-- The `%H` directive: regex `2[0-3]|[0-1]\d|\d` (ordered alternatives). -/
def matchH : List Char → Option (Nat × List Char)
  | [] => none
  | [c0] =>
    match digit? c0 with
    | some d0 => some (d0, [])
    | none => none
  | c0 :: c1 :: rest =>
    match digit? c0, digit? c1 with
    | some d0, some d1 =>
      if d0 = 2 ∧ d1 ≤ 3 then some (20 + d1, rest)
      else if d0 ≤ 1 then some (10 * d0 + d1, rest)
      else some (d0, c1 :: rest)
    | some d0, none => some (d0, c1 :: rest)
    | none, _ => none

/-- The `%I` directive: regex `1[0-2]|0[1-9]|[1-9]` (ordered alternatives). -/
def matchI : List Char → Option (Nat × List Char)
  | [] => none
  | [c0] =>
    match digit? c0 with
    | some d0 => if 1 ≤ d0 then some (d0, []) else none
    | none => none
  | c0 :: c1 :: rest =>
    match digit? c0, digit? c1 with
    | some d0, some d1 =>
      if d0 = 1 ∧ d1 ≤ 2 then some (10 + d1, rest)
      else if d0 = 0 ∧ 1 ≤ d1 then some (d1, rest)
      else if 1 ≤ d0 then some (d0, c1 :: rest)
      else none
    | some d0, none => if 1 ≤ d0 then some (d0, c1 :: rest) else none
    | none, _ => none

/-- The `%M` directive: regex `[0-5]\d|\d` (ordered alternatives). -/
def matchM : List Char → Option (Nat × List Char)
  | [] => none
  | [c0] =>
    match digit? c0 with
    | some d0 => some (d0, [])
    | none => none
  | c0 :: c1 :: rest =>
    match digit? c0, digit? c1 with
    | some d0, some d1 =>
      if d0 ≤ 5 then some (10 * d0 + d1, rest)
      else some (d0, c1 :: rest)
    | some d0, none => some (d0, c1 :: rest)
    | none, _ => none

/-- The literal `:` of both formats. -/
def expectColon : List Char → Option (List Char)
  | ':' :: rest => some rest
  | _ => none

/-- The literal blank of `"%I:%M %p"`: `_strptime` turns format whitespace
into `\s+`. -/
def wsPlus : List Char → Option (List Char)
  | c :: cs => if pyIsSpace c then some (cs.dropWhile pyIsSpace) else none
  | [] => none

/-- The `%p` directive: case-insensitive `AM|PM`; `true` means PM. -/
def matchAmPm : List Char → Option (Bool × List Char)
  | c0 :: c1 :: rest =>
    if (c0 = 'a' ∨ c0 = 'A') ∧ (c1 = 'm' ∨ c1 = 'M') then some (false, rest)
    else if (c0 = 'p' ∨ c0 = 'P') ∧ (c1 = 'm' ∨ c1 = 'M') then some (true, rest)
    else none
  | _ => none

/-- `datetime.strptime(s, "%H:%M")`, returning `(hour, minute)`; the full
string must be consumed. -/
def parseHM (cs : List Char) : Option (Nat × Nat) :=
  match matchH cs with
  | none => none
  | some (h, r1) =>
    match expectColon r1 with
    | none => none
    | some r2 =>
      match matchM r2 with
      | none => none
      | some (m, r3) => if r3 = [] then some (h, m) else none

/-- `datetime.strptime(s, "%I:%M %p")`, returning `(hour, minute)` after the
AM/PM adjustment (`PM`: 12 stays 12, otherwise add 12; `AM`: 12 becomes 0). -/
def parseIMp (cs : List Char) : Option (Nat × Nat) :=
  match matchI cs with
  | none => none
  | some (h, r1) =>
    match expectColon r1 with
    | none => none
    | some r2 =>
      match matchM r2 with
      | none => none
      | some (m, r3) =>
        match wsPlus r3 with
        | none => none
        | some r4 =>
          match matchAmPm r4 with
          | none => none
          | some (isPM, r5) =>
            if r5 = [] then
              some ((if isPM then (if h = 12 then 12 else h + 12)
                     else (if h = 12 then 0 else h)), m)
            else none

/-- `FlightSearchAgent.parse_time` (flight_agent.py lines 77–89): absent or
falsy input and the `"TBD"` sentinel map to 12; otherwise the stripped
string is parsed with `"%I:%M %p"` when it contains the substring `"AM"` or
`"PM"`, else with `"%H:%M"`, and any parse failure maps to 12. -/
def parse_time (time_str : Option String) : ℚ :=
  match time_str with
  | none => 12
  | some s =>
    if s = "" ∨ s = "TBD" then 12
    else
      if containsPair 'A' 'M' (pyStrip s.data) ||
          containsPair 'P' 'M' (pyStrip s.data) then
        match parseIMp (pyStrip s.data) with
        | some (h, m) => (h : ℚ) + (m : ℚ) / 60
        | none => 12
      else
        match parseHM (pyStrip s.data) with
        | some (h, m) => (h : ℚ) + (m : ℚ) / 60
        | none => 12

theorem digit?_le {c : Char} {d : Nat} (h : digit? c = some d) : d ≤ 9 := by
  unfold digit? at h
  split at h
  · rename_i hc
    cases h
    omega
  · exact absurd h (by simp)

theorem matchH_le {cs : List Char} {h : Nat} {r : List Char}
    (hm : matchH cs = some (h, r)) : h ≤ 23 := by
  match cs with
  | [] => simp [matchH] at hm
  | [c0] =>
    simp only [matchH] at hm
    cases hd0 : digit? c0 with
    | none => simp [hd0] at hm
    | some d0 =>
      simp [hd0] at hm
      have := digit?_le hd0
      omega
  | c0 :: c1 :: rest =>
    simp only [matchH] at hm
    cases hd0 : digit? c0 with
    | none => simp [hd0] at hm
    | some d0 =>
      have g0 := digit?_le hd0
      cases hd1 : digit? c1 with
      | none => simp [hd0, hd1] at hm; omega
      | some d1 =>
        have g1 := digit?_le hd1
        simp only [hd0, hd1] at hm
        split at hm
        · simp at hm; omega
        · split at hm
          · simp at hm; omega
          · simp at hm; omega

theorem matchI_bounds {cs : List Char} {h : Nat} {r : List Char}
    (hm : matchI cs = some (h, r)) : 1 ≤ h ∧ h ≤ 12 := by
  match cs with
  | [] => simp [matchI] at hm
  | [c0] =>
    simp only [matchI] at hm
    cases hd0 : digit? c0 with
    | none => simp [hd0] at hm
    | some d0 =>
      have g0 := digit?_le hd0
      simp only [hd0] at hm
      split at hm
      · simp at hm; omega
      · simp at hm
  | c0 :: c1 :: rest =>
    simp only [matchI] at hm
    cases hd0 : digit? c0 with
    | none => simp [hd0] at hm
    | some d0 =>
      have g0 := digit?_le hd0
      cases hd1 : digit? c1 with
      | none =>
        simp only [hd0, hd1] at hm
        split at hm
        · simp at hm; omega
        · simp at hm
      | some d1 =>
        have g1 := digit?_le hd1
        simp only [hd0, hd1] at hm
        split at hm
        · simp at hm; omega
        · split at hm
          · rename_i hc; simp at hm; omega
          · split at hm
            · simp at hm; omega
            · simp at hm

theorem matchM_le {cs : List Char} {m : Nat} {r : List Char}
    (hm : matchM cs = some (m, r)) : m ≤ 59 := by
  match cs with
  | [] => simp [matchM] at hm
  | [c0] =>
    simp only [matchM] at hm
    cases hd0 : digit? c0 with
    | none => simp [hd0] at hm
    | some d0 =>
      simp [hd0] at hm
      have := digit?_le hd0
      omega
  | c0 :: c1 :: rest =>
    simp only [matchM] at hm
    cases hd0 : digit? c0 with
    | none => simp [hd0] at hm
    | some d0 =>
      have g0 := digit?_le hd0
      cases hd1 : digit? c1 with
      | none => simp [hd0, hd1] at hm; omega
      | some d1 =>
        have g1 := digit?_le hd1
        simp only [hd0, hd1] at hm
        split at hm
        · simp at hm; omega
        · simp at hm; omega

theorem parseHM_bounds {cs : List Char} {h m : Nat}
    (hp : parseHM cs = some (h, m)) : h ≤ 23 ∧ m ≤ 59 := by
  unfold parseHM at hp
  cases h1 : matchH cs with
  | none => simp [h1] at hp
  | some p1 =>
    obtain ⟨hh, r1⟩ := p1
    simp only [h1] at hp
    cases h2 : expectColon r1 with
    | none => simp [h2] at hp
    | some r2 =>
      simp only [h2] at hp
      cases h3 : matchM r2 with
      | none => simp [h3] at hp
      | some p3 =>
        obtain ⟨mm, r3⟩ := p3
        simp only [h3] at hp
        split at hp
        · simp at hp
          obtain ⟨e1, e2⟩ := hp
          subst e1; subst e2
          exact ⟨matchH_le h1, matchM_le h3⟩
        · simp at hp

theorem parseIMp_bounds {cs : List Char} {h m : Nat}
    (hp : parseIMp cs = some (h, m)) : h ≤ 23 ∧ m ≤ 59 := by
  unfold parseIMp at hp
  cases h1 : matchI cs with
  | none => simp [h1] at hp
  | some p1 =>
    obtain ⟨hh, r1⟩ := p1
    simp only [h1] at hp
    cases h2 : expectColon r1 with
    | none => simp [h2] at hp
    | some r2 =>
      simp only [h2] at hp
      cases h3 : matchM r2 with
      | none => simp [h3] at hp
      | some p3 =>
        obtain ⟨mm, r3⟩ := p3
        simp only [h3] at hp
        cases h4 : wsPlus r3 with
        | none => simp [h4] at hp
        | some r4 =>
          simp only [h4] at hp
          cases h5 : matchAmPm r4 with
          | none => simp [h5] at hp
          | some p5 =>
            obtain ⟨isPM, r5⟩ := p5
            simp only [h5] at hp
            split at hp
            · simp at hp
              obtain ⟨e1, e2⟩ := hp
              subst e2
              have hb := matchI_bounds h1
              have hm59 := matchM_le h3
              refine ⟨?_, hm59⟩
              cases isPM <;> simp at e1 <;> split at e1 <;> omega
            · simp at hp

theorem frac_nonneg (h m : Nat) : (0 : ℚ) ≤ (h : ℚ) + (m : ℚ) / 60 := by
  positivity

theorem frac_lt_24 {h m : Nat} (hh : h ≤ 23) (hm : m ≤ 59) :
    (h : ℚ) + (m : ℚ) / 60 < 24 := by
  have h1 : (h : ℚ) ≤ 23 := by exact_mod_cast hh
  have h2 : (m : ℚ) ≤ 59 := by exact_mod_cast hm
  have h3 : (m : ℚ) / 60 < 1 := by
    rw [div_lt_one (by norm_num : (0:ℚ) < 60)]
    linarith
  linarith

/-- `parse_time` always lands in `[0, 24)`. -/
theorem parse_time_mem_Ico (t : Option String) :
    0 ≤ parse_time t ∧ parse_time t < 24 := by
  match t with
  | none => simp [parse_time]; norm_num
  | some s =>
    simp only [parse_time]
    split
    · norm_num
    · split
      · cases hp : parseIMp (pyStrip s.data) with
        | none => simp [hp]; norm_num
        | some p =>
          obtain ⟨h, m⟩ := p
          simp only [hp]
          exact ⟨frac_nonneg h m,
            frac_lt_24 (parseIMp_bounds hp).1 (parseIMp_bounds hp).2⟩
      · cases hp : parseHM (pyStrip s.data) with
        | none => simp [hp]; norm_num
        | some p =>
          obtain ⟨h, m⟩ := p
          simp only [hp]
          exact ⟨frac_nonneg h m,
            frac_lt_24 (parseHM_bounds hp).1 (parseHM_bounds hp).2⟩

/-! ## Data model -/

/-- A Python value found under the `"price"` key: a number, or a
non-numeric value (carrying its text). -/
inductive PVal where
  | num (q : ℚ)
  | str (s : String)
deriving DecidableEq

/-- One flight candidate record, as built by `analyze_flexible_dates`
(flight_agent.py lines 151–163).  `none` means the key is absent (or holds
Python `None`).  Fields not read by the scoring routine are carried along
so that preservation of whole records is a meaningful statement. -/
structure Flight where
  price : Option PVal := none
  outbound_departure_time : Option String := none
  return_departure_time : Option String := none
  outbound_date : Option String := none
  return_date : Option String := none
  duration : ℚ := 0
  airline : String := "Various Airlines"
  layovers : Nat := 0
  booking_link : String := ""
deriving DecidableEq

/-- Python arithmetic on a `"price"` value: a non-numeric operand raises
`TypeError`. -/
def pvNum : PVal → Except String ℚ
  | PVal.num q => Except.ok q
  | PVal.str _ => Except.error "TypeError"

/-- Numeric reading of a `PVal` with a junk default for the (unreachable)
non-numeric case; used only by the pure mirror `score_val`. -/
def pvD : PVal → ℚ
  | PVal.num q => q
  | PVal.str _ => 0

/-- Python `sum(...)` with start value `acc`: left fold that raises
`TypeError` at the first non-numeric operand. -/
def pySum (acc : ℚ) : List PVal → Except String ℚ
  | [] => Except.ok acc
  | p :: ps =>
    match p with
    | PVal.num q => pySum (acc + q) ps
    | PVal.str _ => Except.error "TypeError"

/-- `valid_flights = [f for f in flight_results if f.get("price") is not None]`
(flight_agent.py line 174): only a *missing* price is filtered out. -/
def valid_flights (flight_results : List Flight) : List Flight :=
  flight_results.filter fun f => f.price.isSome

/-- The inner closure `flight_score` (flight_agent.py lines 179–189):

```
price = flight.get("price", 999999)
out_dep = self.parse_time(flight.get("outbound_departure_time", "12:00"))
ret_dep = self.parse_time(flight.get("return_departure_time", "12:00"))
avg_price = sum(f.get("price", 0) for f in valid_flights) / len(valid_flights)
price_score = price / max(avg_price, 1)
return (price_score * 0.5) + (out_dep / 24 * 0.25) + (abs(-ret_dep) / 24 * 0.25)
```

Note the last summand is `abs(-ret_dep)/24*0.25 = ret_dep/24*0.25`: there
is no `1 - x` inversion in the code.  (Python would raise
`ZeroDivisionError` on an empty `valid_flights`; `sort_flights_by_value`
never scores with an empty `valid_flights`, and `ℚ` division by zero is
total here.) -/
def flight_score (valid_fs : List Flight) (flight : Flight) : Except String ℚ :=
  let price := flight.price.getD (PVal.num 999999)
  let out_dep := parse_time (some (flight.outbound_departure_time.getD "12:00"))
  let ret_dep := parse_time (some (flight.return_departure_time.getD "12:00"))
  match pySum 0 (valid_fs.map fun f => f.price.getD (PVal.num 0)) with
  | Except.error e => Except.error e
  | Except.ok total =>
    let avg_price := total / (valid_fs.length : ℚ)
    match pvNum price with
    | Except.error e => Except.error e
    | Except.ok p =>
      let price_score := p / max avg_price 1
      Except.ok (price_score * 0.5 + out_dep / 24 * 0.25 + |(-ret_dep)| / 24 * 0.25)

/-- The key array Python's `sorted(valid_flights, key=flight_score)` builds:
one `flight_score` call per element, in list order, propagating the first
exception. -/
def mapScores (valid_fs : List Flight) : List Flight → Except String (List ℚ)
  | [] => Except.ok []
  | f :: fs =>
    match flight_score valid_fs f with
    | Except.error e => Except.error e
    | Except.ok s =>
      match mapScores valid_fs fs with
      | Except.error e => Except.error e
      | Except.ok rest => Except.ok (s :: rest)

/-- Stable insertion with respect to a `ℚ`-valued key: `x` is placed before
the first element whose key is `≥ key x`. -/
def insertK {α : Type} (key : α → ℚ) (x : α) : List α → List α
  | [] => [x]
  | y :: ys => if key x ≤ key y then x :: y :: ys else y :: insertK key x ys

/-- Stable sort by a `ℚ`-valued key (insertion sort).  A stable sort is
uniquely determined by its comparison key and input order, so this agrees
with Python's `sorted(..., key=...)`. -/
def sortK {α : Type} (key : α → ℚ) : List α → List α
  | [] => []
  | x :: xs => insertK key x (sortK key xs)

/-- The comprehension
`best_value = [f for f in sorted_flights if f.get("price", 999999) <= threshold]`
(flight_agent.py line 199), with Python's `TypeError` on a non-numeric
comparison operand. -/
def filterLe (threshold : ℚ) : List Flight → Except String (List Flight)
  | [] => Except.ok []
  | f :: fs =>
    match pvNum (f.price.getD (PVal.num 999999)) with
    | Except.error e => Except.error e
    | Except.ok p =>
      match filterLe threshold fs with
      | Except.error e => Except.error e
      | Except.ok rest => Except.ok (if p ≤ threshold then f :: rest else rest)

/-- `FlightSearchAgent.sort_flights_by_value` (flight_agent.py lines
168–206), with Python exceptions made explicit in `Except`. -/
def sort_flights_by_value (flight_results : List Flight) : Except String (List Flight) :=
  if flight_results.isEmpty then Except.ok []
  else
    let valid_fs := valid_flights flight_results
    if valid_fs.isEmpty then Except.ok []
    else
      match mapScores valid_fs valid_fs with
      | Except.error e => Except.error e
      | Except.ok scores =>
        let sorted_flights := (sortK Prod.snd (valid_fs.zip scores)).map Prod.fst
        match sorted_flights with
        | [] => Except.ok (sorted_flights.take 10)
        | best :: _ =>
          match pvNum (best.price.getD (PVal.num 0)) with
          | Except.error e => Except.error e
          | Except.ok best_price =>
            let threshold := best_price * 1.2
            match filterLe threshold sorted_flights with
            | Except.error e => Except.error e
            | Except.ok best_value =>
              if best_value.length ≥ 3 then Except.ok (best_value.take 10)
              else Except.ok (sorted_flights.take 10)

/-! ## Pure mirrors (spec-side definitions) -/

/-- Sum of the numeric readings of the prices fed to Python's `sum`. -/
def sumD (ps : List PVal) : ℚ := (ps.map pvD).sum

/-- Pure mirror of `flight_score`, defined for candidates whose prices are
numeric; agrees with `flight_score` there (`flight_score_ok`). -/
def score_val (valid_fs : List Flight) (f : Flight) : ℚ :=
  let avg_price := sumD (valid_fs.map fun g => g.price.getD (PVal.num 0)) / (valid_fs.length : ℚ)
  pvD (f.price.getD (PVal.num 999999)) / max avg_price 1 * 0.5
    + parse_time (some (f.outbound_departure_time.getD "12:00")) / 24 * 0.25
    + |(-(parse_time (some (f.return_departure_time.getD "12:00"))))| / 24 * 0.25

/-- Transcription of spec §4.1 Step 4 (selection with fallback), worded
from the spec: sort the valid candidates ascending by score; `bestPrice`
is the price of the top-ranked candidate; `threshold = bestPrice * 1.2`;
the best-value subset is all sorted candidates with price ≤ threshold; if
it has at least 3 members return its first up-to-10 elements, otherwise
the first up-to-10 of the full sorted sequence. -/
def spec_selection (l : List Flight) : List Flight :=
  let valid_fs := valid_flights l
  let sorted := sortK (score_val valid_fs) valid_fs
  match sorted with
  | [] => []
  | best :: _ =>
    let bestPrice := pvD (best.price.getD (PVal.num 0))
    let threshold := bestPrice * 1.2
    let best_value := sorted.filter fun f => pvD (f.price.getD (PVal.num 999999)) ≤ threshold
    if 3 ≤ best_value.length then best_value.take 10 else sorted.take 10

/-- The composite score exactly as the specification words it (spec §4.1
Step 3), with the `1 - x` inversion of the return component. -/
def spec_score (price mean_price out_dep ret_dep : ℚ) : ℚ :=
  0.5 * (price / max mean_price 1) + 0.25 * (out_dep / 24) + 0.25 * (1 - ret_dep / 24)

/-! ## Stable sort: permutation, sortedness, stability -/

theorem insertK_perm {α : Type} (key : α → ℚ) (x : α) (s : List α) :
    List.Perm (insertK key x s) (x :: s) := by
  induction s with
  | nil => simp [insertK]
  | cons y ys ih =>
    simp only [insertK]
    split
    · exact List.Perm.refl _
    · exact (List.Perm.cons y ih).trans (List.Perm.swap x y ys)

theorem sortK_perm {α : Type} (key : α → ℚ) (l : List α) :
    List.Perm (sortK key l) l := by
  induction l with
  | nil => simp [sortK]
  | cons x xs ih =>
    exact (insertK_perm key x (sortK key xs)).trans (List.Perm.cons x ih)

theorem insertK_decomp {α : Type} (key : α → ℚ) (x : α) (s : List α) :
    ∃ p q, s = p ++ q ∧ insertK key x s = p ++ x :: q ∧
      ∀ y ∈ p, ¬ key x ≤ key y := by
  induction s with
  | nil => exact ⟨[], [], rfl, rfl, by simp⟩
  | cons y ys ih =>
    by_cases h : key x ≤ key y
    · exact ⟨[], y :: ys, rfl, by simp [insertK, h], by simp⟩
    · obtain ⟨p, q, h1, h2, h3⟩ := ih
      refine ⟨y :: p, q, by simp [h1], by simp [insertK, h, h2], ?_⟩
      intro z hz
      rcases List.mem_cons.mp hz with rfl | hz2
      · exact h
      · exact h3 z hz2

theorem insertK_pairwise {α : Type} (key : α → ℚ) (x : α) {s : List α}
    (hs : s.Pairwise (fun a b => key a ≤ key b)) :
    (insertK key x s).Pairwise (fun a b => key a ≤ key b) := by
  induction s with
  | nil => simp [insertK]
  | cons y ys ih =>
    obtain ⟨hy, hys⟩ := List.pairwise_cons.mp hs
    simp only [insertK]
    split
    · rename_i hle
      refine List.Pairwise.cons ?_ hs
      intro z hz
      rcases List.mem_cons.mp hz with rfl | hz2
      · exact hle
      · exact le_trans hle (hy z hz2)
    · rename_i hnle
      have hyx : key y ≤ key x := le_of_not_le hnle
      refine List.Pairwise.cons ?_ (ih hys)
      intro z hz
      have hz3 := (insertK_perm key x ys).mem_iff.mp hz
      rcases List.mem_cons.mp hz3 with rfl | hz4
      · exact hyx
      · exact hy z hz4

theorem sortK_pairwise {α : Type} (key : α → ℚ) (l : List α) :
    (sortK key l).Pairwise (fun a b => key a ≤ key b) := by
  induction l with
  | nil => simp [sortK]
  | cons x xs ih => exact insertK_pairwise key x ih

/-- Stability of `sortK`: the sublist of elements whose key equals any
fixed value is untouched by the sort. -/
theorem sortK_filter_eq {α : Type} (key : α → ℚ) (k : ℚ) (l : List α) :
    (sortK key l).filter (fun a => decide (key a = k)) =
      l.filter (fun a => decide (key a = k)) := by
  induction l with
  | nil => rfl
  | cons x xs ih =>
    show (insertK key x (sortK key xs)).filter _ = _
    obtain ⟨p, q, h1, h2, h3⟩ := insertK_decomp key x (sortK key xs)
    rw [h2, List.filter_append]
    have hq : p.filter (fun a => decide (key a = k)) ++ q.filter (fun a => decide (key a = k))
        = xs.filter (fun a => decide (key a = k)) := by
      rw [← List.filter_append, ← h1, ih]
    by_cases hx : key x = k
    · have hp : p.filter (fun a => decide (key a = k)) = [] := by
        rw [List.filter_eq_nil_iff]
        intro a ha
        simp only [decide_eq_true_eq]
        intro hk
        exact h3 a ha (by rw [hx, hk])
      rw [hp] at hq
      simp only [List.nil_append] at hq
      rw [List.filter_cons_of_pos (by simpa using hx),
        List.filter_cons_of_pos (by simpa using hx), hp, hq]
      simp
    · rw [List.filter_cons_of_neg (by simpa using hx),
        List.filter_cons_of_neg (by simpa using hx)]
      exact hq

theorem insertK_map {α β : Type} (key : β → ℚ) (d : α → β) (x : α) (s : List α) :
    insertK key (d x) (s.map d) = (insertK (fun a => key (d a)) x s).map d := by
  induction s with
  | nil => simp [insertK]
  | cons y ys ih =>
    simp only [List.map_cons, insertK]
    by_cases h : key (d x) ≤ key (d y)
    · simp [h]
    · simp [h, ih]

theorem sortK_map {α β : Type} (key : β → ℚ) (d : α → β) (l : List α) :
    sortK key (l.map d) = (sortK (fun a => key (d a)) l).map d := by
  induction l with
  | nil => simp [sortK]
  | cons x xs ih =>
    simp only [List.map_cons]
    show insertK key (d x) (sortK key (xs.map d)) = _
    rw [ih, insertK_map]
    rfl

theorem zip_self_map {α β : Type} (g : α → β) (l : List α) :
    l.zip (l.map g) = l.map fun a => (a, g a) := by
  induction l with
  | nil => rfl
  | cons x xs ih => simp [ih]

/-! ## Numeric-price bookkeeping -/

/-- `numOk o` holds when the price entry is absent or numeric — i.e. when
Python arithmetic on `o.get(...)` cannot raise `TypeError`. -/
def numOk : Option PVal → Bool
  | some (PVal.str _) => false
  | _ => true

theorem numOk_getD_num {o : Option PVal} (h : numOk o = true) (d : ℚ) :
    ∃ q, o.getD (PVal.num d) = PVal.num q := by
  cases o with
  | none => exact ⟨d, rfl⟩
  | some pv =>
    cases pv with
    | num q => exact ⟨q, rfl⟩
    | str s => simp [numOk] at h

theorem numOk_of_getD_num {o : Option PVal} {d q : ℚ}
    (h : o.getD (PVal.num d) = PVal.num q) : numOk o = true := by
  cases o with
  | none => rfl
  | some pv =>
    cases pv with
    | num _ => rfl
    | str s => simp [Option.getD] at h

theorem pvNum_getD_ok {o : Option PVal} (h : numOk o = true) (d : ℚ) :
    pvNum (o.getD (PVal.num d)) = Except.ok (pvD (o.getD (PVal.num d))) := by
  obtain ⟨q, hq⟩ := numOk_getD_num h d
  rw [hq]
  rfl

theorem mem_valid_flights {f : Flight} {l : List Flight}
    (h : f ∈ valid_flights l) : f ∈ l ∧ f.price.isSome = true := by
  have := List.mem_filter.mp h
  exact ⟨this.1, this.2⟩

/-! ## Evaluating the `Except`-level code under numeric prices -/

theorem pySum_ok_num {acc : ℚ} {ps : List PVal} {s : ℚ}
    (h : pySum acc ps = Except.ok s) : ∀ p ∈ ps, ∃ q, p = PVal.num q := by
  induction ps generalizing acc with
  | nil => simp
  | cons p ps ih =>
    intro x hx
    match p, hx with
    | PVal.num q, hx =>
      rcases List.mem_cons.mp hx with rfl | hx2
      · exact ⟨q, rfl⟩
      · exact ih (by simpa [pySum] using h) x hx2
    | PVal.str t, hx => simp [pySum] at h

theorem pySum_eq_ok {ps : List PVal} (h : ∀ p ∈ ps, ∃ q, p = PVal.num q)
    (acc : ℚ) : pySum acc ps = Except.ok (acc + sumD ps) := by
  induction ps generalizing acc with
  | nil => simp [pySum, sumD]
  | cons p ps ih =>
    obtain ⟨q, rfl⟩ := h p (by simp)
    have hrest : ∀ x ∈ ps, ∃ r, x = PVal.num r := fun x hx => h x (by simp [hx])
    rw [show pySum acc (PVal.num q :: ps) = pySum (acc + q) ps from rfl,
      ih hrest (acc + q)]
    have : acc + q + sumD ps = acc + sumD (PVal.num q :: ps) := by
      simp [sumD, pvD]
      ring
    rw [this]

theorem flight_score_eq {valid_fs : List Flight} {f : Flight}
    (hv : ∀ g ∈ valid_fs, numOk g.price = true) (hf : numOk f.price = true) :
    flight_score valid_fs f = Except.ok (score_val valid_fs f) := by
  have hnum : ∀ p ∈ valid_fs.map (fun g => g.price.getD (PVal.num 0)),
      ∃ q, p = PVal.num q := by
    intro p hp
    obtain ⟨g, hg, rfl⟩ := List.mem_map.mp hp
    exact numOk_getD_num (hv g hg) 0
  simp only [flight_score, score_val, pySum_eq_ok hnum 0, pvNum_getD_ok hf,
    zero_add]

theorem flight_score_ok_inv {valid_fs : List Flight} {f : Flight} {s : ℚ}
    (h : flight_score valid_fs f = Except.ok s) :
    ∃ t, pySum 0 (valid_fs.map fun g => g.price.getD (PVal.num 0)) = Except.ok t := by
  unfold flight_score at h
  cases hps : pySum 0 (valid_fs.map fun g => g.price.getD (PVal.num 0)) with
  | error e => simp [hps] at h
  | ok t => exact ⟨t, rfl⟩

theorem mapScores_eq {valid_fs : List Flight}
    (hv : ∀ g ∈ valid_fs, numOk g.price = true) :
    ∀ fs, (∀ f ∈ fs, numOk f.price = true) →
      mapScores valid_fs fs = Except.ok (fs.map (score_val valid_fs)) := by
  intro fs
  induction fs with
  | nil => intro _; simp [mapScores]
  | cons f fs ih =>
    intro hfs
    have hf := hfs f (by simp)
    have hrest : ∀ g ∈ fs, numOk g.price = true := fun g hg => hfs g (by simp [hg])
    simp only [mapScores, flight_score_eq hv hf, ih hrest, List.map_cons]

theorem mapScores_ok_num {valid_fs : List Flight} {f : Flight}
    {fs : List Flight} {s : List ℚ}
    (h : mapScores valid_fs (f :: fs) = Except.ok s) :
    ∀ g ∈ valid_fs, numOk g.price = true := by
  unfold mapScores at h
  cases hfs : flight_score valid_fs f with
  | error e => simp [hfs] at h
  | ok s0 =>
    obtain ⟨t, hps⟩ := flight_score_ok_inv hfs
    have hall := pySum_ok_num hps
    intro g hg
    have : g.price.getD (PVal.num 0) ∈
        valid_fs.map fun g => g.price.getD (PVal.num 0) :=
      List.mem_map.mpr ⟨g, hg, rfl⟩
    obtain ⟨q, hq⟩ := hall _ this
    exact numOk_of_getD_num hq

theorem filterLe_eq {t : ℚ} {fs : List Flight}
    (h : ∀ f ∈ fs, numOk f.price = true) :
    filterLe t fs = Except.ok
      (fs.filter fun f => pvD (f.price.getD (PVal.num 999999)) ≤ t) := by
  induction fs with
  | nil => simp [filterLe]
  | cons f fs ih =>
    have hf := h f (by simp)
    have hrest : ∀ g ∈ fs, numOk g.price = true := fun g hg => h g (by simp [hg])
    simp only [filterLe, pvNum_getD_ok hf, ih hrest, List.filter_cons]
    by_cases hc : pvD (f.price.getD (PVal.num 999999)) ≤ t <;> simp [hc]

/-! ## The refinement: code = spec-worded selection, under numeric prices -/

theorem sorted_flights_eq (valid_fs : List Flight) (g : Flight → ℚ) :
    (sortK Prod.snd (valid_fs.zip (valid_fs.map g))).map Prod.fst =
      sortK g valid_fs := by
  rw [zip_self_map, sortK_map]
  simp only [List.map_map]
  show (sortK (fun a => g a) valid_fs).map id = sortK g valid_fs
  rw [List.map_id]

theorem sort_ok_spec (l : List Flight)
    (hnum : ∀ f ∈ l, numOk f.price = true) :
    sort_flights_by_value l = Except.ok (spec_selection l) := by
  by_cases hl : l.isEmpty
  · have : l = [] := by simpa using hl
    subst this
    simp [sort_flights_by_value, spec_selection, valid_flights, sortK]
  · by_cases hv : (valid_flights l).isEmpty
    · have hveq : valid_flights l = [] := by simpa using hv
      simp [sort_flights_by_value, spec_selection, hl, hv, hveq, sortK]
    · have hvnum : ∀ g ∈ valid_flights l, numOk g.price = true :=
        fun g hg => hnum g (mem_valid_flights hg).1
      have hms := mapScores_eq hvnum (valid_flights l) hvnum
      simp only [sort_flights_by_value, spec_selection, hl, hv, hms,
        Bool.false_eq_true, if_false, sorted_flights_eq]
      cases hs : sortK (score_val (valid_flights l)) (valid_flights l) with
      | nil => simp
      | cons best rest =>
        have hbest : best ∈ valid_flights l := by
          have : best ∈ sortK (score_val (valid_flights l)) (valid_flights l) := by
            rw [hs]; exact List.mem_cons_self best rest
          exact (sortK_perm _ _).mem_iff.mp this
        have hsorted_num : ∀ f ∈ best :: rest, numOk f.price = true := by
          intro f hf
          have : f ∈ sortK (score_val (valid_flights l)) (valid_flights l) := by
            rw [hs]; exact hf
          exact hvnum f ((sortK_perm _ _).mem_iff.mp this)
        simp only [pvNum_getD_ok (hvnum best hbest) 0, filterLe_eq hsorted_num]
        split <;> rfl

theorem sort_ok_inv {l : List Flight} {out : List Flight}
    (h : sort_flights_by_value l = Except.ok out) :
    (valid_flights l = [] ∧ out = []) ∨
      ((∀ f ∈ l, numOk f.price = true) ∧ out = spec_selection l) := by
  by_cases hl : l.isEmpty
  · left
    have hleq : l = [] := by simpa using hl
    subst hleq
    simp [sort_flights_by_value] at h
    exact ⟨rfl, h⟩
  · by_cases hv : (valid_flights l).isEmpty
    · left
      have hveq : valid_flights l = [] := by simpa using hv
      simp [sort_flights_by_value, hl, hv] at h
      exact ⟨hveq, h⟩
    · right
      have hvne : valid_flights l ≠ [] := by simpa using hv
      cases hms : mapScores (valid_flights l) (valid_flights l) with
      | error e => simp [sort_flights_by_value, hl, hv, hms] at h
      | ok scores =>
        obtain ⟨f0, fs0, hfs⟩ := List.exists_cons_of_ne_nil hvne
        have hvnum : ∀ g ∈ valid_flights l, numOk g.price = true := by
          rw [hfs] at hms
          have := mapScores_ok_num hms
          rw [hfs]
          exact this
        have hnum : ∀ f ∈ l, numOk f.price = true := by
          intro f hf
          cases hp : f.price with
          | none => rfl
          | some pv =>
            have := hvnum f (List.mem_filter.mpr ⟨hf, by simp [hp]⟩)
            rwa [hp] at this
        refine ⟨hnum, ?_⟩
        have hspec := sort_ok_spec l hnum
        rw [h] at hspec
        exact Except.ok.inj hspec

/-! ## Structural facts about the selection -/

theorem spec_selection_length_le (l : List Flight) :
    (spec_selection l).length ≤ 10 := by
  simp only [spec_selection]
  split
  · simp
  · split
    · exact List.length_take_le _ _
    · exact List.length_take_le _ _

theorem spec_selection_sublist (l : List Flight) :
    List.Sublist (spec_selection l)
      (sortK (score_val (valid_flights l)) (valid_flights l)) := by
  simp only [spec_selection]
  split
  · rename_i heq
    rw [heq]
  · rename_i best rest heq
    rw [heq]
    split
    · exact (List.take_sublist _ _).trans (List.filter_sublist _)
    · exact List.take_sublist _ _

theorem spec_selection_mem {l : List Flight} {f : Flight}
    (h : f ∈ spec_selection l) : f ∈ l := by
  have h1 := (spec_selection_sublist l).subset h
  have h2 := (sortK_perm _ _).mem_iff.mp h1
  exact (mem_valid_flights h2).1

theorem spec_selection_ne_nil {l : List Flight} (h : valid_flights l ≠ []) :
    spec_selection l ≠ [] := by
  have hs_ne : sortK (score_val (valid_flights l)) (valid_flights l) ≠ [] := by
    intro h0
    have hlen := (sortK_perm (score_val (valid_flights l)) (valid_flights l)).length_eq
    rw [h0] at hlen
    exact h (List.length_eq_zero.mp hlen.symm)
  simp only [spec_selection]
  split
  · rename_i heq
    exact absurd heq hs_ne
  · rename_i best rest heq
    split
    · rename_i h3
      intro h0
      have hlen := congrArg List.length h0
      rw [List.length_take, List.length_nil] at hlen
      rcases Nat.min_eq_zero_iff.mp hlen with hz | hz <;> omega
    · intro h0
      rw [heq] at h0
      have hlen := congrArg List.length h0
      rw [List.length_take, List.length_nil, List.length_cons] at hlen
      rcases Nat.min_eq_zero_iff.mp hlen with hz | hz <;> omega

theorem filter_and_sublist {α : Type} (p q : α → Bool) (l : List α) :
    List.Sublist (l.filter fun a => p a && q a) (l.filter p) := by
  induction l with
  | nil => simp
  | cons x xs ih =>
    simp only [List.filter_cons]
    cases hp : p x with
    | false =>
      simp only [Bool.false_and, Bool.false_eq_true, if_false]
      exact ih
    | true =>
      cases hq : q x with
      | false =>
        simp only [Bool.true_and, Bool.false_eq_true, if_false, if_true]
        exact ih.cons x
      | true =>
        simp only [Bool.true_and, if_true]
        exact ih.cons₂ x

/-! ## Concrete fixtures and evaluations -/

/-- A well-formed candidate: price 100, both time fields the `"TBD"`
sentinel (as `analyze_flexible_dates` produces when no leg times are
found). -/
def fA : Flight :=
  { price := some (PVal.num 100)
    outbound_departure_time := some "TBD"
    return_departure_time := some "TBD"
    airline := "AirA"
    booking_link := "https://example.com/a" }

/-- A malformed candidate: the `"price"` key is present but holds the
non-numeric value `"N/A"`. -/
def gBad : Flight := { price := some (PVal.str "N/A") }

/-- A well-formed candidate with an early outbound (06:00) and a late
return departure (18:00). -/
def fC1 : Flight :=
  { price := some (PVal.num 100)
    outbound_departure_time := some "06:00"
    return_departure_time := some "18:00" }

theorem parse_time_TBD : parse_time (some "TBD") = 12 := by
  simp [parse_time]

theorem parse_time_0600 : parse_time (some "06:00") = 6 := by
  have h1 : parseHM (pyStrip "06:00".data) = some (6, 0) := by decide
  have h2 : (containsPair 'A' 'M' (pyStrip "06:00".data) ||
      containsPair 'P' 'M' (pyStrip "06:00".data)) = false := by decide
  simp [parse_time, h1, h2]

theorem parse_time_1800 : parse_time (some "18:00") = 18 := by
  have h1 : parseHM (pyStrip "18:00".data) = some (18, 0) := by decide
  have h2 : (containsPair 'A' 'M' (pyStrip "18:00".data) ||
      containsPair 'P' 'M' (pyStrip "18:00".data)) = false := by decide
  simp [parse_time, h1, h2]

theorem parse_time_1200 : parse_time (some "12:00") = 12 := by
  have h1 : parseHM (pyStrip "12:00".data) = some (12, 0) := by decide
  have h2 : (containsPair 'A' 'M' (pyStrip "12:00".data) ||
      containsPair 'P' 'M' (pyStrip "12:00".data)) = false := by decide
  simp [parse_time, h1, h2]

theorem parse_time_garbled : parse_time (some "garbled") = 12 := by
  have h1 : parseHM (pyStrip "garbled".data) = none := by decide
  have h2 : (containsPair 'A' 'M' (pyStrip "garbled".data) ||
      containsPair 'P' 'M' (pyStrip "garbled".data)) = false := by decide
  simp [parse_time, h1, h2]

theorem spec_selection_fA : spec_selection [fA] = [fA] := by
  have hle : pvD (fA.price.getD (PVal.num 999999)) ≤
      pvD (fA.price.getD (PVal.num 0)) * 1.2 := by
    simp only [fA, Option.getD_some, pvD]
    norm_num
  have hval : valid_flights [fA] = [fA] := rfl
  simp [spec_selection, hval, sortK, insertK, hle]

theorem sort_fA_eval : sort_flights_by_value [fA] = Except.ok [fA] := by
  rw [sort_ok_spec [fA] (by decide), spec_selection_fA]

/-! ## The claims -/

/-- C1: the claim states the composite score is
`0.5*(price/max(mean,1)) + 0.25*(out_hour/24) + 0.25*(1 - ret_hour/24)`,
with the return component inverted.  The code computes
`abs(-ret_dep)/24*0.25 = ret_dep/24*0.25` with no inversion, contradicting
its own comment `# ... 25% late return`.  On a single candidate with price
100, outbound 06:00 and return 18:00 the code yields 3/4 while the
spec formula yields 5/8; a later return *raises* the code's score. -/
theorem C1_return_component_not_inverted :
    flight_score [fC1] fC1 = Except.ok (3/4) ∧
    spec_score 100 100 6 18 = 5/8 ∧
    ((3 : ℚ)/4 ≠ 5/8) := by
  refine ⟨?_, ?_, by norm_num⟩
  · rw [flight_score_eq (by decide) (by decide)]
    congr 1
    simp only [score_val, sumD, fC1, List.map_cons, List.map_nil, Option.getD_some,
      pvD, List.sum_cons, List.sum_nil, List.length_cons, List.length_nil,
      parse_time_0600, parse_time_1800]
    rw [abs_neg, abs_of_nonneg (by norm_num : (0:ℚ) ≤ 18)]
    norm_num
  · simp only [spec_score]
    norm_num

/-- C2: on any input of price-carrying-or-priceless candidates (the data
model's input space) with at least one valid candidate, the routine
returns exactly the spec-worded selection: sort ascending by score, take
the ≤-threshold subset if it has ≥ 3 members (capped at 10), else the full
sorted list capped at 10. -/
theorem C2_selection_with_fallback (l : List Flight)
    (hnum : ∀ f ∈ l, numOk f.price = true)
    (hsome : ∃ f ∈ l, f.price.isSome = true) :
    sort_flights_by_value l = Except.ok (spec_selection l) :=
  sort_ok_spec l hnum

theorem C2_selection_with_fallback_witness :
    (∀ f ∈ [fA], numOk f.price = true) ∧ (∃ f ∈ [fA], f.price.isSome = true) ∧
      sort_flights_by_value [fA] = Except.ok (spec_selection [fA]) :=
  ⟨by decide, by decide, C2_selection_with_fallback [fA] (by decide) (by decide)⟩

/-- C3 counterexample: a candidate whose price is present but non-numeric
(`"N/A"`) is *not* dropped by the validation filter (which only checks
`is not None`); scoring it then raises `TypeError` instead of excluding
it. -/
theorem C3_counterexample_nonnumeric_not_dropped :
    valid_flights [gBad] = [gBad] ∧
    sort_flights_by_value [gBad] = Except.error "TypeError" :=
  ⟨rfl, rfl⟩

/-- C3 (amended): candidates with a *missing* price are dropped and never
appear in output, and whenever the routine does return a result every
returned candidate has a numeric price (a retained non-numeric price makes
the routine raise instead of returning). -/
theorem C3_returned_candidates_have_numeric_price {l out : List Flight}
    (h : sort_flights_by_value l = Except.ok out) :
    ∀ f ∈ out, ∃ q, f.price = some (PVal.num q) := by
  rcases sort_ok_inv h with ⟨_, rfl⟩ | ⟨hnum, rfl⟩
  · simp
  · intro f hf
    have h1 := (spec_selection_sublist l).subset hf
    have h2 := (sortK_perm _ _).mem_iff.mp h1
    obtain ⟨hl, hsome⟩ := mem_valid_flights h2
    have hnf := hnum f hl
    cases hp : f.price with
    | none => rw [hp] at hsome; simp at hsome
    | some pv =>
      cases pv with
      | num q => exact ⟨q, rfl⟩
      | str s => rw [hp] at hnf; simp [numOk] at hnf

theorem C3_returned_candidates_have_numeric_price_witness :
    sort_flights_by_value [fA] = Except.ok [fA] ∧
      ∀ f ∈ [fA], ∃ q, f.price = some (PVal.num q) :=
  ⟨sort_fA_eval, C3_returned_candidates_have_numeric_price sort_fA_eval⟩

/-- C4 counterexample: the routine is not total — one candidate with a
non-numeric price makes the whole call raise `TypeError` (inside
`sum(...)` of the mean computation). -/
theorem C4_counterexample_raises_typeerror :
    sort_flights_by_value [fA, gBad] = Except.error "TypeError" := rfl

/-- C4 (amended): the routine is total and surfaces no exception on every
input whose candidates' prices are each absent or numeric — including the
empty sequence and candidates with absent or unparseable time strings. -/
theorem C4_total_unless_nonnumeric_price (l : List Flight)
    (hnum : ∀ f ∈ l, numOk f.price = true) :
    ∃ out, sort_flights_by_value l = Except.ok out :=
  ⟨spec_selection l, sort_ok_spec l hnum⟩

theorem C4_total_unless_nonnumeric_price_witness :
    (∀ f ∈ [fA], numOk f.price = true) ∧
      ∃ out, sort_flights_by_value [fA] = Except.ok out :=
  ⟨by decide, C4_total_unless_nonnumeric_price [fA] (by decide)⟩

/-- C5: `parse_time` always returns a value in `[0, 24)`; absent input,
the `"TBD"` sentinel and the unparseable `"garbled"` all map to exactly
12; and a candidate given `"garbled"` scores identically to the same
candidate with the time field absent. -/
theorem C5_parse_time_range_and_defaults :
    (∀ t : Option String, 0 ≤ parse_time t ∧ parse_time t < 24) ∧
    parse_time none = 12 ∧
    parse_time (some "TBD") = 12 ∧
    parse_time (some "garbled") = 12 ∧
    (∀ (valid_fs : List Flight) (f : Flight),
      flight_score valid_fs { f with outbound_departure_time := some "garbled" } =
        flight_score valid_fs { f with outbound_departure_time := none }) := by
  refine ⟨parse_time_mem_Ico, rfl, parse_time_TBD, parse_time_garbled, ?_⟩
  intro valid_fs f
  simp only [flight_score, Option.getD_some, Option.getD_none, parse_time_garbled,
    parse_time_1200]

/-- C6: whenever the routine returns a list, that list is monotonically
sorted by the (code's) composite score, and candidates with equal scores
keep their relative input order (the returned equal-score candidates form
a sublist of the input's equal-score candidates). -/
theorem C6_sorted_monotone_and_stable {l out : List Flight}
    (h : sort_flights_by_value l = Except.ok out) :
    List.Sorted (· ≤ ·) (out.map (score_val (valid_flights l))) ∧
    ∀ k : ℚ,
      List.Sublist (out.filter fun f => decide (score_val (valid_flights l) f = k))
        (l.filter fun f => decide (score_val (valid_flights l) f = k)) := by
  rcases sort_ok_inv h with ⟨_, rfl⟩ | ⟨hnum, rfl⟩
  · exact ⟨by simp, fun k => by simp⟩
  · constructor
    · have hpw := sortK_pairwise (score_val (valid_flights l)) (valid_flights l)
      have hsp := hpw.sublist (spec_selection_sublist l)
      exact List.pairwise_map.mpr hsp
    · intro k
      have hsub := (spec_selection_sublist l).filter
          (fun f => decide (score_val (valid_flights l) f = k))
      rw [sortK_filter_eq] at hsub
      refine hsub.trans ?_
      show List.Sublist ((valid_flights l).filter _) (l.filter _)
      unfold valid_flights
      rw [List.filter_filter]
      exact filter_and_sublist _ _ l

theorem C6_sorted_monotone_and_stable_witness :
    sort_flights_by_value [fA] = Except.ok [fA] ∧
      (List.Sorted (· ≤ ·) ([fA].map (score_val (valid_flights [fA]))) ∧
       ∀ k : ℚ,
         List.Sublist ([fA].filter fun f => decide (score_val (valid_flights [fA]) f = k))
           ([fA].filter fun f => decide (score_val (valid_flights [fA]) f = k))) :=
  ⟨sort_fA_eval, C6_sorted_monotone_and_stable sort_fA_eval⟩

/-- C7: on price-well-typed input the routine returns without error, and
the returned list is non-empty exactly when the input holds at least one
priced candidate; in particular all-priceless or empty input yields the
empty list with no error. -/
theorem C7_nonempty_iff_any_priced (l : List Flight)
    (hnum : ∀ f ∈ l, numOk f.price = true) :
    ∃ out, sort_flights_by_value l = Except.ok out ∧
      (out ≠ [] ↔ ∃ f ∈ l, f.price.isSome = true) := by
  refine ⟨spec_selection l, sort_ok_spec l hnum, ?_⟩
  constructor
  · intro hne
    by_contra hno
    push_neg at hno
    have hv : valid_flights l = [] := by
      rw [valid_flights, List.filter_eq_nil_iff]
      intro f hf
      simp [hno f hf]
    exact hne (by simp [spec_selection, hv, sortK])
  · intro hex
    obtain ⟨f, hf, hsome⟩ := hex
    apply spec_selection_ne_nil
    intro h0
    have hmem : f ∈ valid_flights l := List.mem_filter.mpr ⟨hf, hsome⟩
    rw [h0] at hmem
    simp at hmem

theorem C7_nonempty_iff_any_priced_witness :
    (∀ f ∈ [fA], numOk f.price = true) ∧
      ∃ out, sort_flights_by_value [fA] = Except.ok out ∧
        (out ≠ [] ↔ ∃ f ∈ [fA], f.price.isSome = true) :=
  ⟨by decide, C7_nonempty_iff_any_priced [fA] (by decide)⟩

/-- C8: every list the routine returns has length at most 10. -/
theorem C8_output_at_most_ten {l out : List Flight}
    (h : sort_flights_by_value l = Except.ok out) : out.length ≤ 10 := by
  rcases sort_ok_inv h with ⟨_, rfl⟩ | ⟨_, rfl⟩
  · simp
  · exact spec_selection_length_le l

theorem C8_output_at_most_ten_witness :
    sort_flights_by_value [fA] = Except.ok [fA] ∧ ([fA] : List Flight).length ≤ 10 :=
  ⟨sort_fA_eval, C8_output_at_most_ten sort_fA_eval⟩

/-- C9: every returned element is one of the input candidate records,
whole and unchanged (the routine only selects and reorders; it never
builds new records or rewrites fields). -/
theorem C9_output_records_are_input_records {l out : List Flight}
    (h : sort_flights_by_value l = Except.ok out) : ∀ f ∈ out, f ∈ l := by
  rcases sort_ok_inv h with ⟨_, rfl⟩ | ⟨_, rfl⟩
  · simp
  · exact fun f hf => spec_selection_mem hf

theorem C9_output_records_are_input_records_witness :
    sort_flights_by_value [fA] = Except.ok [fA] ∧ ∀ f ∈ [fA], f ∈ [fA] :=
  ⟨sort_fA_eval, C9_output_records_are_input_records sort_fA_eval⟩

end FlightAgent
